import Mathlib

/-!
Shallow embedding of the minES switch-off echo suppressor
(`suppressor.h`: class `EchoSuppressor`, AMDF lag metric) together with the
configuration handling of the configurable variant (`set_config`) and the
CLI clamping in `main` of `cancel_file.cc`.

IEEE float arithmetic of the C++ is modelled by exact rational arithmetic; all
comparisons, floors (`max` with `1e-9`) and clamps are translated literally.
The quantities `block_samples_`, `max_lag_samples_` and the lag step are the
stored integer members of the C++ object and appear here as fields of
`Params`; `kSuppressor` is the constant set of `suppressor.h`
(16 kHz, 160-sample blocks, 1280-sample max lag, step 16).
-/

namespace MinES

/-- The `1e-9` floor used throughout `process_block` for powers and sums. -/
def eps : ℚ := 1 / 1000000000

/-- The integer and rational parameters that `process_block` reads:
the constants `kBlockSamples`, `kMaxLagSamples`, `kLagStep`, `kRhoThresh`,
`kPowerRatioAlpha`, `kAttenLinear`, `kHangoverBlocks`, `kAttack`, `kRelease`
of `suppressor.h` (stored members in the configurable variant). -/
structure Params where
  blockSamples : ℕ
  maxLagSamples : ℕ
  lagStep : ℕ
  rhoThresh : ℚ
  powerRatioAlpha : ℚ
  attenLinear : ℚ
  hangoverBlocks : ℤ
  attack : ℚ
  release : ℚ
  deriving Repr, DecidableEq

/-- History capacity: `hist_len = max_lag_samples + block_samples * 4`. -/
def Params.histLen (p : Params) : ℕ := p.maxLagSamples + 4 * p.blockSamples

/-- The fixed constants of `suppressor.h` (`EchoSuppressor`, 16 kHz):
block 160, max lag `int(0.08*16000) = 1280`, step `16000/1000 = 16`,
`ρ = 0.6`, `α = 1.3`, atten `0.0001`, hangover 20, attack `0.1`, release `0.01`. -/
def kSuppressor : Params :=
  { blockSamples := 160, maxLagSamples := 1280, lagStep := 16,
    rhoThresh := 3/5, powerRatioAlpha := 13/10, attenLinear := 1/10000,
    hangoverBlocks := 20, attack := 1/10, release := 1/100 }

/-- Mutable state of the suppressor: `far_hist_`, `hist_pos_`, `gate_gain_`,
`hang_cnt_`. -/
structure SupState where
  farHist : List ℚ
  histPos : ℕ
  gateGain : ℚ
  hangCnt : ℤ
  deriving Repr, DecidableEq

/-- Constructor state: history zero-filled to `hist_len`, cursor 0, gain 1,
hangover 0 (constructor calls `reset()` after `assign`). -/
def initState (p : Params) : SupState :=
  { farHist := List.replicate p.histLen 0, histPos := 0, gateGain := 1, hangCnt := 0 }

/-- The `reset()` operation: zero the history in place (length unchanged), cursor 0,
gain 1, hangover 0. -/
def resetState (st : SupState) : SupState :=
  { farHist := List.replicate st.farHist.length 0, histPos := 0, gateGain := 1, hangCnt := 0 }

/-- The index wrap of the `wrap_index` lambda: C++ computes a truncating `%`
followed by a conditional `+= hist_size`, which for any input equals the
mathematical (Euclidean) remainder, i.e. `Int.emod`. -/
def wrapIndex (histSize : ℕ) (pos : ℕ) (offset : ℤ) : ℕ :=
  (((pos : ℤ) + offset) % (histSize : ℤ)).toNat

/-- Step 1 of `process_block`: the push loop
`for i: far_hist_[hist_pos_] = far[i]; hist_pos_ = (hist_pos_+1) % hist_size`. -/
def pushSamples : List ℚ → ℕ → List ℚ → List ℚ × ℕ
  | hist, pos, [] => (hist, pos)
  | hist, pos, x :: xs => pushSamples (hist.set pos x) ((pos + 1) % hist.length) xs

/-- The `block` samples `far[0] … far[block-1]` read by the C++ loops
(out-of-range reads default to 0; callers pass exactly `block` samples). -/
def blockOf (p : Params) (xs : List ℚ) : List ℚ :=
  (List.range p.blockSamples).map (fun i => xs.getD i 0)

/-- History and cursor after step 1 of `process_block`. -/
def afterPush (p : Params) (st : SupState) (far : List ℚ) : List ℚ × ℕ :=
  pushSamples st.farHist st.histPos (blockOf p far)

/-- Step 2: `mic_pow = max(Σ mic[i]*mic[i], 1e-9)`. -/
def micPow (p : Params) (mic : List ℚ) : ℚ :=
  max (∑ i ∈ Finset.range p.blockSamples, mic.getD i 0 * mic.getD i 0) eps

/-- Step 2: `mic_abs = max(Σ |mic[i]|, 1e-9)`. -/
def micAbs (p : Params) (mic : List ℚ) : ℚ :=
  max (∑ i ∈ Finset.range p.blockSamples, |mic.getD i 0|) eps

/-- The history sample `far_hist_[wrap_index(hist_pos_, -(block+lag)+i)]`
read by the lag-search inner loop (post-push history and cursor). -/
def farAt (p : Params) (hist : List ℚ) (pos : ℕ) (lag i : ℕ) : ℚ :=
  hist.getD (wrapIndex hist.length pos (-((p.blockSamples : ℤ) + (lag : ℤ)) + (i : ℤ))) 0

/-- The `far_pow` at a candidate lag, after its floor: `max(Σ fx*fx, 1e-9)`. -/
def farPowF (p : Params) (hist : List ℚ) (pos : ℕ) (lag : ℕ) : ℚ :=
  max (∑ i ∈ Finset.range p.blockSamples, farAt p hist pos lag i * farAt p hist pos lag i) eps

/-- The sum `far_abs = Σ |fx|` at a candidate lag. -/
def farAbsAt (p : Params) (hist : List ℚ) (pos : ℕ) (lag : ℕ) : ℚ :=
  ∑ i ∈ Finset.range p.blockSamples, |farAt p hist pos lag i|

/-- The sum `accum = Σ |fx - my|` at a candidate lag (AMDF numerator). -/
def accumAt (p : Params) (hist : List ℚ) (pos : ℕ) (mic : List ℚ) (lag : ℕ) : ℚ :=
  ∑ i ∈ Finset.range p.blockSamples, |farAt p hist pos lag i - mic.getD i 0|

/-- The final clamp of the AMDF score:
`if (score > 1) score = 1; else if (score < -1) score = -1;`. -/
def clampScore (s : ℚ) : ℚ :=
  if s > 1 then 1 else if s < -1 then -1 else s

/-- AMDF similarity score of one candidate lag:
`score = clamp(1 - accum / max(mic_abs + far_abs, 1e-9))`. -/
def scoreAt (p : Params) (hist : List ℚ) (pos : ℕ) (mic : List ℚ) (lag : ℕ) : ℚ :=
  clampScore (1 - accumAt p hist pos mic lag /
    max (micAbs p mic + farAbsAt p hist pos lag) eps)

/-- The candidate lags visited by
`for (lag = 0; lag <= kMaxLagSamples; lag += lag_step)`:
`k * lag_step` for `k = 0 … maxLag / lagStep` (the step is ≥ 1 in the code). -/
def candidates (p : Params) : List ℕ :=
  (List.range (p.maxLagSamples / p.lagStep + 1)).map (fun k => k * p.lagStep)

/-- The running-best update of the lag search: replace the accumulator
`(best_score, best_lag, best_far_pow)` only on a strictly greater score. -/
def pickBest (f : ℕ → ℚ) (g : ℕ → ℚ) : ℚ × ℕ × ℚ → List ℕ → ℚ × ℕ × ℚ
  | acc, [] => acc
  | acc, l :: ls => pickBest f g (if f l > acc.1 then (f l, l, g l) else acc) ls

/-- Step 3 of `process_block`: the full lag search. The initial accumulator
score `-2` plays the role of the C++ `-infinity`: every clamped score is
`≥ -1 > -2`, so the first candidate always replaces it, exactly as in C++.
The initial pair `(0, 1e-9)` is the C++ initialisation of
`best_lag`/`best_far_pow`. -/
def searchBest (p : Params) (hist : List ℚ) (pos : ℕ) (mic : List ℚ) : ℚ × ℕ × ℚ :=
  pickBest (scoreAt p hist pos mic) (farPowF p hist pos) (-2, 0, eps) (candidates p)

/-- Step 6: hangover control. `if (suppress) hang_cnt_ = kHangoverBlocks;
else if (hang_cnt_ > 0) { --hang_cnt_; suppress = true; }`. -/
def hangoverUpdate (hangoverBlocks : ℤ) (detected : Bool) (cnt : ℤ) : Bool × ℤ :=
  if detected then (true, hangoverBlocks)
  else if cnt > 0 then (true, cnt - 1)
  else (false, cnt)

/-- Per-block outputs of `process_block`: the `out` samples, the value stored
through `applied_gain`, the value stored through `estimated_lag_samples`,
the returned `suppress` flag, and the internal `echo_detected` flag
(observable as `lag ≠ -1`). -/
structure BlockResult where
  out : List ℚ
  gain : ℚ
  lag : ℤ
  suppress : Bool
  detected : Bool
  deriving Repr, DecidableEq, Inhabited

/-- The body of `EchoSuppressor::process_block` of `suppressor.h` (AMDF metric),
steps 1-9 in source order, returning the observable outputs and the
successor state. -/
def processBlock (p : Params) (st : SupState) (far mic : List ℚ) :
    BlockResult × SupState :=
  let hp := afterPush p st far
  let sb := searchBest p hp.1 hp.2 mic
  let bestFarPow := max sb.2.2 eps
  let det : Bool := decide (sb.1 > p.rhoThresh) &&
    decide (micPow p mic < p.powerRatioAlpha * bestFarPow)
  let su := hangoverUpdate p.hangoverBlocks det st.hangCnt
  let target : ℚ := if su.1 then p.attenLinear else 1
  let coeff : ℚ := if target < st.gateGain then p.attack else p.release
  let g : ℚ := (1 - coeff) * st.gateGain + coeff * target
  (⟨(List.range p.blockSamples).map (fun i => mic.getD i 0 * g), g,
    if det then (sb.2.1 : ℤ) else -1, su.1, det⟩,
   ⟨hp.1, hp.2, g, su.2⟩)

/-- History after a call (projection helper for statements). -/
def postHist (p : Params) (st : SupState) (far : List ℚ) : List ℚ :=
  (afterPush p st far).1

/-- Cursor after a call (projection helper for statements). -/
def postPos (p : Params) (st : SupState) (far : List ℚ) : ℕ :=
  (afterPush p st far).2

/-- The lag-search triple of a call. -/
def bestOf (p : Params) (st : SupState) (far mic : List ℚ) : ℚ × ℕ × ℚ :=
  searchBest p (postHist p st far) (postPos p st far) mic

/-- The per-lag score of a call, as a function of the candidate lag. -/
def scoreOf (p : Params) (st : SupState) (far mic : List ℚ) (lag : ℕ) : ℚ :=
  scoreAt p (postHist p st far) (postPos p st far) mic lag

/-- The per-lag floored far power of a call. -/
def farPowOf (p : Params) (st : SupState) (far : List ℚ) (lag : ℕ) : ℚ :=
  farPowF p (postHist p st far) (postPos p st far) lag

/-- Sequential block processing (state only). -/
def processRun (p : Params) (st : SupState) : List (List ℚ × List ℚ) → SupState
  | [] => st
  | (far, mic) :: rest => processRun p (processBlock p st far mic).2 rest

/-- Sequential block processing, collecting each call's outputs. -/
def runResults (p : Params) (st : SupState) : List (List ℚ × List ℚ) → List BlockResult
  | [] => []
  | (far, mic) :: rest =>
    (processBlock p st far mic).1 :: runResults p (processBlock p st far mic).2 rest

/-- An all-zero block. -/
def zeroIn (p : Params) : List ℚ := List.replicate p.blockSamples 0

/-- State after `n` calls with all-zero reference and microphone blocks,
starting from the constructor state. -/
def zeroRun (p : Params) : ℕ → SupState
  | 0 => initState p
  | n + 1 => (processBlock p (zeroRun p n) (zeroIn p) (zeroIn p)).2

/-- Target gain of step 7: `suppress ? kAttenLinear : 1.0f`. -/
def targetGain (p : Params) (suppress : Bool) : ℚ :=
  if suppress then p.attenLinear else 1

/-- Smoothing coefficient of step 8: `(target < gate_gain_) ? kAttack : kRelease`. -/
def smoothCoeff (p : Params) (target gain : ℚ) : ℚ :=
  if target < gain then p.attack else p.release

/-- Reading the history `j+1` positions behind the cursor (`j = 0` is the
most recently written sample): `far_hist_[wrap_index(hist_pos_, -(1+j))]`. -/
def readBack (hist : List ℚ) (pos : ℕ) (j : ℕ) : ℚ :=
  hist.getD (wrapIndex hist.length pos (-(1 + (j : ℤ)))) 0

/-- The far-end sample stream of a run, after per-call block normalization. -/
def farStream (p : Params) (inputs : List (List ℚ × List ℚ)) : List ℚ :=
  (inputs.map (fun q => blockOf p q.1)).flatten

/-- The state invariant of the amended C8: gain inside
`[mutedLinearGain, 1]`, non-negative hangover counter. -/
def GoodState (p : Params) (st : SupState) : Prop :=
  p.attenLinear ≤ st.gateGain ∧ st.gateGain ≤ 1 ∧ 0 ≤ st.hangCnt

/-- A small parameter set (`block_samples_ = 1`, `max_lag_samples_ = 2`,
`lag_step = 1`, thresholds as in `suppressor.h`) used to instantiate the
parameterized theorems on concrete inputs. -/
def tinyParams : Params :=
  { blockSamples := 1, maxLagSamples := 2, lagStep := 1,
    rhoThresh := 3/5, powerRatioAlpha := 13/10, attenLinear := 1/10000,
    hangoverBlocks := 20, attack := 1/10, release := 1/100 }

/-- State after two calls pushing the constant far-end blocks `[1]`, `[1]`. -/
def twoPushState : SupState :=
  (processBlock tinyParams
    ((processBlock tinyParams (initState tinyParams) [1] [0]).2) [1] [0]).2

/-- The small parameter set with a configured hangover length of 1. -/
def hangOneParams : Params :=
  { tinyParams with hangoverBlocks := 1 }

/-- State after one all-zero call at `hangOneParams` (a call on which echo
is detected, reloading the hangover counter to 1). -/
def hangOneAfterDetect : SupState :=
  (processBlock hangOneParams (initState hangOneParams)
    (zeroIn hangOneParams) (zeroIn hangOneParams)).2

/-- Two further far-silent, mic-loud input blocks (no detection on either). -/
def hangOneInputs : List (List ℚ × List ℚ) := [([0], [5]), ([0], [5])]

/-- The parameter set of the C8 counterexample: a muted linear gain above 1
(`atten_db > 0`, e.g. `--atten-db 6` gives `10^(6/20) ≈ 2`), with
attack/release in `[0,1]` and a non-negative hangover length. -/
def bigAttenParams : Params :=
  { tinyParams with attenLinear := 2 }

/-! ### `set_config` of the configurable variant, and the CLI clamp in `main` -/

/-- The `EchoSuppressorConfig` record passed to `set_config`. -/
structure ConfigIn where
  rho_thresh : ℚ
  power_ratio_alpha : ℚ
  atten_db : ℚ
  hangover_blocks : ℤ
  attack : ℚ
  release : ℚ
  deriving Repr, DecidableEq

/-- What `set_config` stores: the configuration record (`config_ = config`)
and the derived `atten_linear_`. -/
structure StoredConfig where
  config : ConfigIn
  atten_linear : ℚ
  deriving Repr, DecidableEq

/-- The `EchoSuppressor::set_config` member: stores the record verbatim and computes
`atten_linear_ = std::pow(10, atten_db/20)`, clamping a negative result to 0.
The transcendental `pow` has no rational closed form, so its float result
enters here as the argument `powValue`; the clamp is translated literally
(`if (atten_linear_ < 0) atten_linear_ = 0;`). -/
def set_config (c : ConfigIn) (powValue : ℚ) : StoredConfig :=
  { config := c, atten_linear := if powValue < 0 then 0 else powValue }

/-- The `--hang` clamp in `main` of `cancel_file.cc`:
`config.hangover_frames = std::max(0, std::stoi(...))`. -/
def parseHangOption (v : ℤ) : ℤ := max 0 v

/-! ### Basic bounds -/

theorem eps_pos : 0 < eps := by norm_num [eps]

theorem clampScore_le_one (s : ℚ) : clampScore s ≤ 1 := by
  unfold clampScore; split_ifs <;> linarith

theorem neg_one_le_clampScore (s : ℚ) : -1 ≤ clampScore s := by
  unfold clampScore; split_ifs <;> linarith

theorem scoreAt_le_one (p : Params) (hist : List ℚ) (pos : ℕ) (mic : List ℚ) (lag : ℕ) :
    scoreAt p hist pos mic lag ≤ 1 := clampScore_le_one _

theorem neg_one_le_scoreAt (p : Params) (hist : List ℚ) (pos : ℕ) (mic : List ℚ) (lag : ℕ) :
    -1 ≤ scoreAt p hist pos mic lag := neg_one_le_clampScore _

theorem eps_le_farPowF (p : Params) (hist : List ℚ) (pos : ℕ) (lag : ℕ) :
    eps ≤ farPowF p hist pos lag := le_max_right _ _

/-! ### The candidate-lag list -/

theorem mem_candidates {p : Params} {l : ℕ} :
    l ∈ candidates p ↔ ∃ k, k ≤ p.maxLagSamples / p.lagStep ∧ l = k * p.lagStep := by
  unfold candidates
  simp [List.mem_map, List.mem_range, Nat.lt_succ_iff, eq_comm]

theorem candidates_le {p : Params} {l : ℕ} (h : l ∈ candidates p) : l ≤ p.maxLagSamples := by
  obtain ⟨k, hk, rfl⟩ := mem_candidates.mp h
  calc k * p.lagStep ≤ p.maxLagSamples / p.lagStep * p.lagStep :=
        Nat.mul_le_mul_right _ hk
    _ ≤ p.maxLagSamples := Nat.div_mul_le_self _ _

theorem candidates_dvd {p : Params} {l : ℕ} (h : l ∈ candidates p) : p.lagStep ∣ l := by
  obtain ⟨k, _, rfl⟩ := mem_candidates.mp h
  exact Dvd.intro_left k rfl

theorem candidates_eq_cons (p : Params) :
    candidates p =
      0 :: (List.range (p.maxLagSamples / p.lagStep)).map (fun k => (k + 1) * p.lagStep) := by
  unfold candidates
  rw [List.range_succ_eq_map]
  simp [List.map_map, Function.comp_def, Nat.succ_eq_add_one]

theorem candidates_sorted (p : Params) : List.Sorted (· ≤ ·) (candidates p) := by
  unfold candidates
  exact List.Pairwise.map _ (fun a b h => Nat.mul_le_mul_right _ (le_of_lt h))
    (List.sorted_lt_range _)

/-! ### The running-best fold -/

theorem pickBest_nil (f g : ℕ → ℚ) (acc : ℚ × ℕ × ℚ) : pickBest f g acc [] = acc := rfl

theorem pickBest_cons (f g : ℕ → ℚ) (acc : ℚ × ℕ × ℚ) (l : ℕ) (ls : List ℕ) :
    pickBest f g acc (l :: ls) =
      pickBest f g (if f l > acc.1 then (f l, l, g l) else acc) ls := rfl

theorem pickBest_of_le (f g : ℕ → ℚ) :
    ∀ (ls : List ℕ) (acc : ℚ × ℕ × ℚ), (∀ l ∈ ls, f l ≤ acc.1) →
      pickBest f g acc ls = acc
  | [], _, _ => rfl
  | l :: ls, acc, h => by
    rw [pickBest_cons, if_neg (not_lt.mpr (h l (List.mem_cons_self l ls)))]
    exact pickBest_of_le f g ls acc fun x hx => h x (List.mem_cons_of_mem _ hx)

/-- Behaviour of the strict-improvement fold started at an already-seen best
`b`: either `b` survives (no later score strictly exceeds it), or the
result is the first later candidate whose score strictly exceeds everything
before it. -/
theorem pickBest_run (f g : ℕ → ℚ) :
    ∀ (ls : List ℕ) (b : ℕ),
      (pickBest f g (f b, b, g b) ls = (f b, b, g b) ∧ ∀ l ∈ ls, f l ≤ f b) ∨
      (∃ pre b' post, ls = pre ++ b' :: post ∧
        pickBest f g (f b, b, g b) ls = (f b', b', g b') ∧ f b < f b' ∧
        (∀ l ∈ pre, f l < f b') ∧ (∀ l ∈ post, f l ≤ f b'))
  | [], b => Or.inl ⟨rfl, by simp⟩
  | a :: ls, b => by
    rw [pickBest_cons]
    dsimp only
    by_cases hab : f a > f b
    · rw [if_pos hab]
      rcases pickBest_run f g ls a with ⟨heq, hle⟩ | ⟨pre, b', post, hdec, heq, hlt, hpre, hpost⟩
      · exact Or.inr ⟨[], a, ls, by simp, heq, hab, by simp, hle⟩
      · refine Or.inr ⟨a :: pre, b', post, by simp [hdec], heq, lt_trans hab hlt, ?_, hpost⟩
        intro l hl
        rcases List.mem_cons.mp hl with rfl | hl
        · exact hlt
        · exact hpre l hl
    · rw [if_neg hab]
      rcases pickBest_run f g ls b with ⟨heq, hle⟩ | ⟨pre, b', post, hdec, heq, hlt, hpre, hpost⟩
      · refine Or.inl ⟨heq, ?_⟩
        intro l hl
        rcases List.mem_cons.mp hl with rfl | hl
        · exact not_lt.mp hab
        · exact hle l hl
      · refine Or.inr ⟨a :: pre, b', post, by simp [hdec], heq, hlt, ?_, hpost⟩
        intro l hl
        rcases List.mem_cons.mp hl with rfl | hl
        · exact lt_of_le_of_lt (not_lt.mp hab) hlt
        · exact hpre l hl

/-- Decomposition of the lag search: the winner is the first candidate that
no earlier candidate ties and no later candidate strictly beats. -/
theorem searchBest_split (p : Params) (hist : List ℚ) (pos : ℕ) (mic : List ℚ) :
    ∃ pre b post,
      candidates p = pre ++ b :: post ∧
      searchBest p hist pos mic =
        (scoreAt p hist pos mic b, b, farPowF p hist pos b) ∧
      (∀ l ∈ pre, scoreAt p hist pos mic l < scoreAt p hist pos mic b) ∧
      (∀ l ∈ post, scoreAt p hist pos mic l ≤ scoreAt p hist pos mic b) := by
  set f := scoreAt p hist pos mic with hf
  set g := farPowF p hist pos with hg
  have hcand := candidates_eq_cons p
  unfold searchBest
  rw [← hf, ← hg, hcand, pickBest_cons]
  have h0 : f 0 > (-2 : ℚ) := lt_of_lt_of_le (by norm_num) (neg_one_le_scoreAt p hist pos mic 0)
  rw [if_pos (by exact h0)]
  rcases pickBest_run f g ((List.range (p.maxLagSamples / p.lagStep)).map
      (fun k => (k + 1) * p.lagStep)) 0 with
    ⟨heq, hle⟩ | ⟨pre, b', post, hdec, heq, hlt, hpre, hpost⟩
  · exact ⟨[], 0, _, rfl, heq, by simp, hle⟩
  · refine ⟨0 :: pre, b', post, by rw [hdec]; rfl, heq, ?_, hpost⟩
    intro l hl
    rcases List.mem_cons.mp hl with rfl | hl
    · exact hlt
    · exact hpre l hl

theorem searchBest_mem (p : Params) (hist : List ℚ) (pos : ℕ) (mic : List ℚ) :
    (searchBest p hist pos mic).2.1 ∈ candidates p := by
  obtain ⟨pre, b, post, hdec, heq, -, -⟩ := searchBest_split p hist pos mic
  rw [heq, hdec]
  exact List.mem_append_right _ (List.mem_cons_self _ _)

theorem searchBest_score_eq (p : Params) (hist : List ℚ) (pos : ℕ) (mic : List ℚ) :
    (searchBest p hist pos mic).1 =
      scoreAt p hist pos mic (searchBest p hist pos mic).2.1 := by
  obtain ⟨pre, b, post, hdec, heq, -, -⟩ := searchBest_split p hist pos mic
  rw [heq]

theorem searchBest_farPow_eq (p : Params) (hist : List ℚ) (pos : ℕ) (mic : List ℚ) :
    (searchBest p hist pos mic).2.2 =
      farPowF p hist pos (searchBest p hist pos mic).2.1 := by
  obtain ⟨pre, b, post, hdec, heq, -, -⟩ := searchBest_split p hist pos mic
  rw [heq]

theorem score_le_searchBest (p : Params) (hist : List ℚ) (pos : ℕ) (mic : List ℚ) :
    ∀ l ∈ candidates p, scoreAt p hist pos mic l ≤ (searchBest p hist pos mic).1 := by
  obtain ⟨pre, b, post, hdec, heq, hpre, hpost⟩ := searchBest_split p hist pos mic
  intro l hl
  rw [heq]
  rw [hdec] at hl
  rcases List.mem_append.mp hl with hl | hl
  · exact le_of_lt (hpre l hl)
  · rcases List.mem_cons.mp hl with rfl | hl
    · exact le_refl _
    · exact hpost l hl

/-- Tie-break: the winning lag is the least candidate achieving the best
score (later equal scores never replace the running best). -/
theorem searchBest_min_tie (p : Params) (hist : List ℚ) (pos : ℕ) (mic : List ℚ) :
    ∀ l ∈ candidates p, scoreAt p hist pos mic l = (searchBest p hist pos mic).1 →
      (searchBest p hist pos mic).2.1 ≤ l := by
  obtain ⟨pre, b, post, hdec, heq, hpre, hpost⟩ := searchBest_split p hist pos mic
  intro l hl hscore
  rw [heq] at hscore ⊢
  dsimp only at hscore ⊢
  rw [hdec] at hl
  rcases List.mem_append.mp hl with hl | hl
  · exact absurd hscore (ne_of_lt (hpre l hl))
  · rcases List.mem_cons.mp hl with rfl | hl
    · exact le_refl _
    · have hsorted : List.Sorted (· ≤ ·) (b :: post) :=
        (candidates_sorted p).sublist (by rw [hdec]; exact List.sublist_append_right _ _)
      exact List.rel_of_sorted_cons hsorted l hl

/-! ### Unfolding `process_block` -/

theorem processBlock_detected (p : Params) (st : SupState) (far mic : List ℚ) :
    (processBlock p st far mic).1.detected =
      (decide ((bestOf p st far mic).1 > p.rhoThresh) &&
       decide (micPow p mic < p.powerRatioAlpha * max (bestOf p st far mic).2.2 eps)) := rfl

theorem processBlock_lag (p : Params) (st : SupState) (far mic : List ℚ) :
    (processBlock p st far mic).1.lag =
      (if (processBlock p st far mic).1.detected then ((bestOf p st far mic).2.1 : ℤ)
       else -1) := rfl

theorem processBlock_suppress (p : Params) (st : SupState) (far mic : List ℚ) :
    (processBlock p st far mic).1.suppress =
      (hangoverUpdate p.hangoverBlocks (processBlock p st far mic).1.detected st.hangCnt).1 :=
  rfl

theorem processBlock_hangCnt (p : Params) (st : SupState) (far mic : List ℚ) :
    (processBlock p st far mic).2.hangCnt =
      (hangoverUpdate p.hangoverBlocks (processBlock p st far mic).1.detected st.hangCnt).2 :=
  rfl

theorem processBlock_gain (p : Params) (st : SupState) (far mic : List ℚ) :
    (processBlock p st far mic).1.gain =
      (1 - smoothCoeff p (targetGain p (processBlock p st far mic).1.suppress) st.gateGain) *
          st.gateGain +
        smoothCoeff p (targetGain p (processBlock p st far mic).1.suppress) st.gateGain *
          targetGain p (processBlock p st far mic).1.suppress := rfl

theorem processBlock_out (p : Params) (st : SupState) (far mic : List ℚ) :
    (processBlock p st far mic).1.out =
      (List.range p.blockSamples).map
        (fun i => mic.getD i 0 * (processBlock p st far mic).1.gain) := rfl

theorem processBlock_state_gain (p : Params) (st : SupState) (far mic : List ℚ) :
    (processBlock p st far mic).2.gateGain = (processBlock p st far mic).1.gain := rfl

theorem processBlock_state_hist (p : Params) (st : SupState) (far mic : List ℚ) :
    (processBlock p st far mic).2.farHist = postHist p st far := rfl

theorem processBlock_state_pos (p : Params) (st : SupState) (far mic : List ℚ) :
    (processBlock p st far mic).2.histPos = postPos p st far := rfl

/-- The stored best far power is already floored, so the second floor of
step 4 is the identity. -/
theorem bestOf_farPow_floor (p : Params) (st : SupState) (far mic : List ℚ) :
    max (bestOf p st far mic).2.2 eps = farPowOf p st far (bestOf p st far mic).2.1 := by
  unfold bestOf farPowOf
  rw [searchBest_farPow_eq]
  exact max_eq_left (eps_le_farPowF _ _ _ _)

theorem processBlock_detected_iff (p : Params) (st : SupState) (far mic : List ℚ) :
    (processBlock p st far mic).1.detected = true ↔
      ((bestOf p st far mic).1 > p.rhoThresh ∧
       micPow p mic < p.powerRatioAlpha * farPowOf p st far (bestOf p st far mic).2.1) := by
  rw [processBlock_detected, ← bestOf_farPow_floor p st far mic]
  simp

/-- A helper for reading one produced output sample. -/
theorem getD_map_range {n i : ℕ} (f : ℕ → ℚ) (d : ℚ) (h : i < n) :
    ((List.range n).map f).getD i d = f i := by
  rw [List.getD_eq_getElem _ _ (by simpa using h)]
  simp

/-- Claim C1. Echo is declared for a block iff the best AMDF score over all
candidate lags strictly exceeds the similarity threshold and the floored
microphone power is strictly below the power-ratio ceiling times the
(floored) reference power captured at the best-scoring lag; the reported
lag is the winning lag when echo is declared and the sentinel `-1`
otherwise. The best score is characterized as an upper bound over all
candidate lags, attained at the winning lag. -/
theorem echo_decision_rule (p : Params) (st : SupState) (far mic : List ℚ) :
    ((processBlock p st far mic).1.detected = true ↔
      ((bestOf p st far mic).1 > p.rhoThresh ∧
        micPow p mic < p.powerRatioAlpha *
          farPowOf p st far (bestOf p st far mic).2.1)) ∧
    ((processBlock p st far mic).1.lag =
      if (processBlock p st far mic).1.detected then ((bestOf p st far mic).2.1 : ℤ)
      else -1) ∧
    (bestOf p st far mic).1 = scoreOf p st far mic (bestOf p st far mic).2.1 ∧
    (∀ l ∈ candidates p, scoreOf p st far mic l ≤ (bestOf p st far mic).1) := by
  refine ⟨processBlock_detected_iff p st far mic, processBlock_lag p st far mic, ?_, ?_⟩
  · exact searchBest_score_eq p _ _ mic
  · exact fun l hl => score_le_searchBest p _ _ mic l hl

/-- Witness for C1: at the small parameter set, candidate lag 0's score is
bounded by the best score of the call. -/
theorem echo_decision_rule_witness :
    scoreOf tinyParams (initState tinyParams) [2] [2] 0 ≤
      (bestOf tinyParams (initState tinyParams) [2] [2]).1 :=
  (echo_decision_rule tinyParams (initState tinyParams) [2] [2]).2.2.2 0 (by decide)

/-- Claim C4. Per call, the gain takes exactly one asymmetric one-pole step:
target = muted gain if suppression is active this block else 1, coefficient
= attack iff target < current gain else release, new gain
`(1-coeff)*gain + coeff*target`; each output sample is the microphone
sample times the post-update gain, which is also stored back. -/
theorem gain_smoothing_rule (p : Params) (st : SupState) (far mic : List ℚ) :
    ((processBlock p st far mic).1.gain =
      (1 - smoothCoeff p (targetGain p (processBlock p st far mic).1.suppress) st.gateGain) *
          st.gateGain +
        smoothCoeff p (targetGain p (processBlock p st far mic).1.suppress) st.gateGain *
          targetGain p (processBlock p st far mic).1.suppress) ∧
    targetGain p true = p.attenLinear ∧
    targetGain p false = 1 ∧
    (∀ t : ℚ, t < st.gateGain → smoothCoeff p t st.gateGain = p.attack) ∧
    (∀ t : ℚ, ¬t < st.gateGain → smoothCoeff p t st.gateGain = p.release) ∧
    (∀ i, i < p.blockSamples →
      (processBlock p st far mic).1.out.getD i 0 =
        mic.getD i 0 * (processBlock p st far mic).1.gain) ∧
    (processBlock p st far mic).2.gateGain = (processBlock p st far mic).1.gain := by
  refine ⟨processBlock_gain p st far mic, rfl, rfl, ?_, ?_, ?_, rfl⟩
  · intro t ht; exact if_pos ht
  · intro t ht; exact if_neg ht
  · intro i hi
    rw [processBlock_out, getD_map_range _ _ hi]

/-- Witness for C4: the single output sample of a call at the small
parameter set equals the microphone sample times the post-update gain. -/
theorem gain_smoothing_rule_witness :
    (processBlock tinyParams (initState tinyParams) [2] [2]).1.out.getD 0 0 =
      ([2] : List ℚ).getD 0 0 * (processBlock tinyParams (initState tinyParams) [2] [2]).1.gain :=
  (gain_smoothing_rule tinyParams (initState tinyParams) [2] [2]).2.2.2.2.2.1 0 (by decide)

/-- Claim C5. The lag search examines the ascending candidates
`0, lagStep, 2·lagStep, …` up to `maxLag` and keeps the strictly highest
score: the winner attains the best score, every candidate's score is at
most the best, a candidate tying the best can only be at or after the
winner (so the smaller lag wins ties), and the reference power captured is
the one at the winning lag. -/
theorem lag_search_order_and_tiebreak (p : Params) (st : SupState) (far mic : List ℚ) :
    candidates p =
      (List.range (p.maxLagSamples / p.lagStep + 1)).map (fun k => k * p.lagStep) ∧
    List.Sorted (· ≤ ·) (candidates p) ∧
    (bestOf p st far mic).2.1 ∈ candidates p ∧
    scoreOf p st far mic (bestOf p st far mic).2.1 = (bestOf p st far mic).1 ∧
    (bestOf p st far mic).2.2 = farPowOf p st far (bestOf p st far mic).2.1 ∧
    (∀ l ∈ candidates p, scoreOf p st far mic l ≤ (bestOf p st far mic).1) ∧
    (∀ l ∈ candidates p, scoreOf p st far mic l = (bestOf p st far mic).1 →
      (bestOf p st far mic).2.1 ≤ l) := by
  refine ⟨rfl, candidates_sorted p, searchBest_mem p _ _ mic,
    (searchBest_score_eq p _ _ mic).symm, searchBest_farPow_eq p _ _ mic, ?_, ?_⟩
  · exact fun l hl => score_le_searchBest p _ _ mic l hl
  · exact fun l hl he => searchBest_min_tie p _ _ mic l hl he


/-- Claim C10. The reported lag estimate is either the sentinel `-1` or a
non-negative multiple of the lag step that is at most `maxLagSamples`. -/
theorem lag_output_range (p : Params) (st : SupState) (far mic : List ℚ) :
    (processBlock p st far mic).1.lag = -1 ∨
    (0 ≤ (processBlock p st far mic).1.lag ∧
      (processBlock p st far mic).1.lag ≤ (p.maxLagSamples : ℤ) ∧
      (p.lagStep : ℤ) ∣ (processBlock p st far mic).1.lag) := by
  rw [processBlock_lag]
  by_cases h : (processBlock p st far mic).1.detected
  · rw [if_pos h]
    have hmem : (bestOf p st far mic).2.1 ∈ candidates p := searchBest_mem p _ _ mic
    exact Or.inr ⟨Int.natCast_nonneg _, Int.ofNat_le.mpr (candidates_le hmem),
      Int.natCast_dvd_natCast.mpr (candidates_dvd hmem)⟩
  · rw [if_neg h]
    exact Or.inl rfl

/-! ### Silent input: the all-zero history is absorbing and scores 1 -/

theorem getD_replicate {r n : ℕ} {d : ℚ} : (List.replicate r d).getD n d = d := by
  rw [List.getD_eq_getElem?_getD]
  rcases Nat.lt_or_ge n r with h | h
  · rw [List.getElem?_replicate, if_pos h]
    rfl
  · rw [List.getElem?_eq_none (by simpa using h)]
    rfl

theorem getD_set_zero {l : List ℚ} {n i : ℕ}
    (h : ∀ j, l.getD j 0 = 0) : (l.set n (0 : ℚ)).getD i 0 = 0 := by
  rcases Nat.lt_or_ge n l.length with hn | hn
  · by_cases hni : n = i
    · subst hni
      rw [List.getD_eq_getElem?_getD, List.getElem?_set_self hn]
      rfl
    · rw [List.getD_eq_getElem?_getD, List.getElem?_set_ne hni, ← List.getD_eq_getElem?_getD]
      exact h i
  · rw [List.set_eq_of_length_le hn]
    exact h i

theorem pushSamples_zero :
    ∀ (xs : List ℚ), (∀ x ∈ xs, x = 0) →
      ∀ (hist : List ℚ) (pos : ℕ), (∀ j, hist.getD j 0 = 0) →
        ∀ j, (pushSamples hist pos xs).1.getD j 0 = 0
  | [], _, hist, pos, hh, j => hh j
  | x :: xs, hxs, hist, pos, hh, j => by
    have hx : x = 0 := hxs x (List.mem_cons_self x xs)
    subst hx
    exact pushSamples_zero xs (fun y hy => hxs y (List.mem_cons_of_mem _ hy))
      (hist.set pos 0) ((pos + 1) % hist.length)
      (fun k => getD_set_zero hh) j

theorem blockOf_zeroIn (p : Params) : ∀ x ∈ blockOf p (zeroIn p), x = 0 := by
  intro x hx
  obtain ⟨i, -, rfl⟩ := List.mem_map.mp hx
  exact getD_replicate

theorem postHist_zero (p : Params) (st : SupState)
    (hh : ∀ j, st.farHist.getD j 0 = 0) :
    ∀ j, (postHist p st (zeroIn p)).getD j 0 = 0 :=
  pushSamples_zero _ (blockOf_zeroIn p) _ _ hh

theorem micPow_zeroIn (p : Params) : micPow p (zeroIn p) = eps := by
  unfold micPow
  rw [Finset.sum_eq_zero fun i _ => by simp [zeroIn, getD_replicate]]
  exact max_eq_right (le_of_lt eps_pos)

theorem micAbs_zeroIn (p : Params) : micAbs p (zeroIn p) = eps := by
  unfold micAbs
  rw [Finset.sum_eq_zero fun i _ => by simp [zeroIn, getD_replicate]]
  exact max_eq_right (le_of_lt eps_pos)

theorem farAt_zero_hist (p : Params) {hist : List ℚ} (pos : ℕ) (lag i : ℕ)
    (hh : ∀ j, hist.getD j 0 = 0) : farAt p hist pos lag i = 0 := hh _

theorem farPowF_zero_hist (p : Params) {hist : List ℚ} (pos : ℕ) (lag : ℕ)
    (hh : ∀ j, hist.getD j 0 = 0) : farPowF p hist pos lag = eps := by
  unfold farPowF
  rw [Finset.sum_eq_zero fun i _ => by rw [farAt_zero_hist p pos lag i hh]; ring]
  exact max_eq_right (le_of_lt eps_pos)

theorem farAbsAt_zero_hist (p : Params) {hist : List ℚ} (pos : ℕ) (lag : ℕ)
    (hh : ∀ j, hist.getD j 0 = 0) : farAbsAt p hist pos lag = 0 := by
  unfold farAbsAt
  exact Finset.sum_eq_zero fun i _ => by rw [farAt_zero_hist p pos lag i hh, abs_zero]

theorem clampScore_one : clampScore 1 = 1 := by norm_num [clampScore]

theorem scoreAt_zero_zero (p : Params) {hist : List ℚ} (pos : ℕ) (lag : ℕ)
    (hh : ∀ j, hist.getD j 0 = 0) :
    scoreAt p hist pos (zeroIn p) lag = 1 := by
  unfold scoreAt accumAt
  rw [Finset.sum_eq_zero fun i _ => by
    rw [farAt_zero_hist p pos lag i hh,
      show (zeroIn p).getD i 0 = 0 from getD_replicate, sub_zero, abs_zero]]
  rw [zero_div, sub_zero, clampScore_one]

/-- If every candidate's score equals `c ≥ -1`, the search returns
`(c, 0, far power at lag 0)`: the first candidate wins and nothing
replaces it. -/
theorem searchBest_const (p : Params) (hist : List ℚ) (pos : ℕ) (mic : List ℚ) (c : ℚ)
    (hc : ∀ l ∈ candidates p, scoreAt p hist pos mic l = c) (h1 : -1 ≤ c) :
    searchBest p hist pos mic = (c, 0, farPowF p hist pos 0) := by
  have hmem0 : (0 : ℕ) ∈ candidates p := by
    rw [candidates_eq_cons]
    exact List.mem_cons_self _ _
  have h0 : scoreAt p hist pos mic 0 = c := hc 0 hmem0
  unfold searchBest
  rw [candidates_eq_cons, pickBest_cons]
  dsimp only
  rw [h0, if_pos (by linarith : c > -2)]
  apply pickBest_of_le
  intro l hl
  have : l ∈ candidates p := by
    rw [candidates_eq_cons]
    exact List.mem_cons_of_mem _ hl
  rw [hc l this]

/-- One `process_block` call on all-zero reference and microphone blocks
from an all-zero history: the AMDF score is 1 at every lag, the floored
powers satisfy `mic_pow < α · best_far_pow`, so echo is detected; all
output samples are 0, the history stays all-zero and the hangover counter
is reloaded. -/
theorem processBlock_zeroIn (p : Params) (st : SupState)
    (hh : ∀ j, st.farHist.getD j 0 = 0)
    (hrho : p.rhoThresh < 1) (halpha : 1 < p.powerRatioAlpha) :
    (processBlock p st (zeroIn p) (zeroIn p)).1.detected = true ∧
    (processBlock p st (zeroIn p) (zeroIn p)).1.suppress = true ∧
    (processBlock p st (zeroIn p) (zeroIn p)).1.gain =
      (1 - smoothCoeff p p.attenLinear st.gateGain) * st.gateGain +
        smoothCoeff p p.attenLinear st.gateGain * p.attenLinear ∧
    (processBlock p st (zeroIn p) (zeroIn p)).1.out = List.replicate p.blockSamples 0 ∧
    (∀ j, (processBlock p st (zeroIn p) (zeroIn p)).2.farHist.getD j 0 = 0) ∧
    (processBlock p st (zeroIn p) (zeroIn p)).2.hangCnt = p.hangoverBlocks := by
  have hz : ∀ j, (postHist p st (zeroIn p)).getD j 0 = 0 := postHist_zero p st hh
  have hbest : bestOf p st (zeroIn p) (zeroIn p) =
      (1, 0, farPowF p (postHist p st (zeroIn p)) (postPos p st (zeroIn p)) 0) := by
    unfold bestOf
    exact searchBest_const p _ _ _ 1
      (fun l _ => scoreAt_zero_zero p _ l hz) (by norm_num)
  have hdet : (processBlock p st (zeroIn p) (zeroIn p)).1.detected = true := by
    rw [processBlock_detected_iff]
    constructor
    · rw [hbest]
      exact hrho
    · rw [micPow_zeroIn]
      unfold farPowOf
      rw [farPowF_zero_hist p _ _ hz]
      exact (lt_mul_iff_one_lt_left eps_pos).mpr halpha
  have hsup : (processBlock p st (zeroIn p) (zeroIn p)).1.suppress = true := by
    rw [processBlock_suppress, hdet]
    rfl
  refine ⟨hdet, hsup, ?_, ?_, ?_, ?_⟩
  · rw [processBlock_gain, hsup]
    rfl
  · rw [processBlock_out]
    calc (List.range p.blockSamples).map
          (fun i => (zeroIn p).getD i 0 *
            (processBlock p st (zeroIn p) (zeroIn p)).1.gain)
        = (List.range p.blockSamples).map (fun _ => (0 : ℚ)) :=
          List.map_eq_map_iff.mpr fun i _ => by
            rw [show (zeroIn p).getD i 0 = 0 from getD_replicate, zero_mul]
      _ = List.replicate p.blockSamples 0 := by simp
  · intro j
    rw [processBlock_state_hist]
    exact hz j
  · rw [processBlock_hangCnt, hdet]
    rfl

/-- The all-zero-history invariant along the silent run. -/
theorem zeroRun_hist_zero :
    ∀ n j, (zeroRun kSuppressor n).farHist.getD j 0 = 0
  | 0, j => getD_replicate
  | n + 1, j =>
    (processBlock_zeroIn kSuppressor (zeroRun kSuppressor n)
      (zeroRun_hist_zero n) (by norm_num [kSuppressor]) (by norm_num [kSuppressor])).2.2.2.2.1 j

/-- Closed form of the gain along the silent run from the constructor
state: exponential decay from 1 toward the muted gain `0.0001` with the
attack coefficient `0.1`. -/
theorem zeroRun_gain :
    ∀ n, (zeroRun kSuppressor n).gateGain = 1/10000 + (9/10) ^ n * (9999/10000)
  | 0 => by norm_num [zeroRun, initState]
  | n + 1 => by
    have hstep := processBlock_zeroIn kSuppressor (zeroRun kSuppressor n)
      (zeroRun_hist_zero n) (by norm_num [kSuppressor]) (by norm_num [kSuppressor])
    have hgain := hstep.2.2.1
    have hg := zeroRun_gain n
    have hpos : (0 : ℚ) < (9/10) ^ n := pow_pos (by norm_num) n
    have hlt : kSuppressor.attenLinear < (zeroRun kSuppressor n).gateGain := by
      rw [hg]
      show (1 : ℚ)/10000 < _
      nlinarith
    have hcoeff : smoothCoeff kSuppressor kSuppressor.attenLinear
        (zeroRun kSuppressor n).gateGain = 1/10 := by
      unfold smoothCoeff
      rw [if_pos hlt]
      rfl
    show (processBlock kSuppressor (zeroRun kSuppressor n)
      (zeroIn kSuppressor) (zeroIn kSuppressor)).2.gateGain = _
    rw [processBlock_state_gain, hgain, hcoeff, hg]
    show (1 - 1/10) * (1/10000 + (9/10) ^ n * (9999/10000)) + 1/10 * (1/10000 : ℚ) = _
    rw [pow_succ]
    ring

/-- Claim C2, amended. On all-zero reference and microphone blocks from the
constructor state, every quantity stays a well-defined finite rational
(every output sample is exactly 0), but — contrary to the original claim —
echo IS detected on every silent block (the AMDF score of an all-zero
window against an all-zero microphone block is 1 and the floored powers
satisfy `1e-9 < 1.3·1e-9`), so suppression engages and the gain decays
exponentially toward the muted gain `0.0001`, not toward 1. -/
theorem silence_engages_suppression (n : ℕ) :
    (zeroRun kSuppressor n).gateGain =
      kSuppressor.attenLinear + (9/10) ^ n * (1 - kSuppressor.attenLinear) ∧
    (processBlock kSuppressor (zeroRun kSuppressor n)
      (zeroIn kSuppressor) (zeroIn kSuppressor)).1.detected = true ∧
    (processBlock kSuppressor (zeroRun kSuppressor n)
      (zeroIn kSuppressor) (zeroIn kSuppressor)).1.suppress = true ∧
    (processBlock kSuppressor (zeroRun kSuppressor n)
      (zeroIn kSuppressor) (zeroIn kSuppressor)).1.out =
      List.replicate kSuppressor.blockSamples 0 := by
  have hstep := processBlock_zeroIn kSuppressor (zeroRun kSuppressor n)
    (zeroRun_hist_zero n) (by norm_num [kSuppressor]) (by norm_num [kSuppressor])
  refine ⟨?_, hstep.1, hstep.2.1, hstep.2.2.2.1⟩
  rw [zeroRun_gain n]
  norm_num [kSuppressor]

/-- Claim C2, counterexample. Already the first all-zero block from the
constructor state is declared echo and suppressed, and the returned gain
drops strictly below 1 (to 0.90001): silence does trigger suppression and
the gain moves away from, not toward, unity. -/
theorem silence_claim_counterexample :
    (processBlock kSuppressor (initState kSuppressor)
      (zeroIn kSuppressor) (zeroIn kSuppressor)).1.detected = true ∧
    (processBlock kSuppressor (initState kSuppressor)
      (zeroIn kSuppressor) (zeroIn kSuppressor)).1.suppress = true ∧
    (processBlock kSuppressor (initState kSuppressor)
      (zeroIn kSuppressor) (zeroIn kSuppressor)).1.gain = 90001/100000 ∧
    (processBlock kSuppressor (initState kSuppressor)
      (zeroIn kSuppressor) (zeroIn kSuppressor)).1.gain < 1 := by
  have hstep := processBlock_zeroIn kSuppressor (initState kSuppressor)
    (fun j => getD_replicate) (by norm_num [kSuppressor]) (by norm_num [kSuppressor])
  have hgain : (processBlock kSuppressor (initState kSuppressor)
      (zeroIn kSuppressor) (zeroIn kSuppressor)).1.gain = 90001/100000 := by
    rw [hstep.2.2.1]
    show (1 - smoothCoeff kSuppressor (1/10000) 1) * 1 + smoothCoeff kSuppressor (1/10000) 1 * (1/10000 : ℚ) = _
    norm_num [smoothCoeff, kSuppressor]
  exact ⟨hstep.1, hstep.2.1, hgain, by rw [hgain]; norm_num⟩

/-! ### Perfect matches score 1; positive mismatch scores below 1 -/

/-- If the microphone block equals the reference window at `lag` sample for
sample, the AMDF numerator vanishes and the score is exactly 1. -/
theorem scoreAt_eq_one_of_match (p : Params) (hist : List ℚ) (pos : ℕ) (mic : List ℚ)
    (lag : ℕ)
    (h : ∀ i, i < p.blockSamples → mic.getD i 0 = farAt p hist pos lag i) :
    scoreAt p hist pos mic lag = 1 := by
  unfold scoreAt accumAt
  rw [Finset.sum_eq_zero fun i hi => by
    rw [h i (Finset.mem_range.mp hi), sub_self, abs_zero]]
  rw [zero_div, sub_zero, clampScore_one]

theorem clampScore_lt_one {s : ℚ} (h : s < 1) : clampScore s < 1 := by
  unfold clampScore
  split_ifs <;> linarith

/-- A strictly positive AMDF numerator keeps the score strictly below 1. -/
theorem scoreAt_lt_one (p : Params) (hist : List ℚ) (pos : ℕ) (mic : List ℚ) (lag : ℕ)
    (ha : 0 < accumAt p hist pos mic lag) :
    scoreAt p hist pos mic lag < 1 := by
  unfold scoreAt
  apply clampScore_lt_one
  have hd : 0 < max (micAbs p mic + farAbsAt p hist pos lag) eps :=
    lt_of_lt_of_le eps_pos (le_max_right _ _)
  have := div_pos ha hd
  linarith

/-- If some candidate scores 1, the best score is exactly 1. -/
theorem bestScore_eq_one (p : Params) (st : SupState) (far mic : List ℚ) (l : ℕ)
    (hl : l ∈ candidates p) (hs : scoreOf p st far mic l = 1) :
    (bestOf p st far mic).1 = 1 := by
  have hle := score_le_searchBest p (postHist p st far) (postPos p st far) mic l hl
  rw [show scoreAt p (postHist p st far) (postPos p st far) mic l =
    scoreOf p st far mic l from rfl, hs] at hle
  have hub : (bestOf p st far mic).1 ≤ 1 := by
    rw [show (bestOf p st far mic).1 =
      (searchBest p (postHist p st far) (postPos p st far) mic).1 from rfl,
      searchBest_score_eq]
    exact scoreAt_le_one _ _ _ _ _
  exact le_antisymm hub hle

/-- Claim C6, amended. If the microphone block equals the reference window
`L` samples back (`L` a candidate lag), the power-ratio condition holds at
`L`, the similarity threshold is below 1, and — as the tie-break forces —
no earlier candidate also achieves a perfect score, then the search selects
lag `L` with the maximal score 1 and echo is declared with reported
lag `L`. -/
theorem perfect_echo_selected (p : Params) (st : SupState) (far mic : List ℚ) (L : ℕ)
    (hL : L ∈ candidates p)
    (hmatch : ∀ i, i < p.blockSamples →
      mic.getD i 0 = farAt p (postHist p st far) (postPos p st far) L i)
    (hearlier : ∀ l ∈ candidates p, l < L → scoreOf p st far mic l < 1)
    (hrho : p.rhoThresh < 1)
    (hpow : micPow p mic < p.powerRatioAlpha * farPowOf p st far L) :
    (bestOf p st far mic).2.1 = L ∧ (bestOf p st far mic).1 = 1 ∧
    (processBlock p st far mic).1.detected = true ∧
    (processBlock p st far mic).1.lag = (L : ℤ) := by
  have hsL : scoreOf p st far mic L = 1 :=
    scoreAt_eq_one_of_match p _ _ mic L hmatch
  have hbest1 : (bestOf p st far mic).1 = 1 := bestScore_eq_one p st far mic L hL hsL
  have hble : (bestOf p st far mic).2.1 ≤ L :=
    searchBest_min_tie p _ _ mic L hL (by rw [show scoreAt p (postHist p st far)
      (postPos p st far) mic L = scoreOf p st far mic L from rfl, hsL,
      show (searchBest p (postHist p st far) (postPos p st far) mic).1 =
        (bestOf p st far mic).1 from rfl, hbest1])
  have hbmem : (bestOf p st far mic).2.1 ∈ candidates p := searchBest_mem p _ _ mic
  have hbeq : (bestOf p st far mic).2.1 = L := by
    rcases lt_or_eq_of_le hble with hlt | heq
    · exfalso
      have h1 := hearlier _ hbmem hlt
      have h3 : (bestOf p st far mic).1 = scoreOf p st far mic (bestOf p st far mic).2.1 :=
        searchBest_score_eq p (postHist p st far) (postPos p st far) mic
      rw [← h3, hbest1] at h1
      exact lt_irrefl _ h1
    · exact heq
  have hdet : (processBlock p st far mic).1.detected = true := by
    rw [processBlock_detected_iff]
    refine ⟨by rw [hbest1]; exact hrho, ?_⟩
    rw [hbeq]
    exact hpow
  refine ⟨hbeq, hbest1, hdet, ?_⟩
  rw [processBlock_lag, if_pos hdet, hbeq]

/-! ### One-sample blocks: reducing the sums for concrete instantiations -/

theorem micPow_block_one {p : Params} (h : p.blockSamples = 1) (mic : List ℚ) :
    micPow p mic = max (mic.getD 0 0 * mic.getD 0 0) eps := by
  unfold micPow
  rw [h, Finset.sum_range_one]

theorem farPowF_block_one {p : Params} (h : p.blockSamples = 1)
    (hist : List ℚ) (pos lag : ℕ) :
    farPowF p hist pos lag = max (farAt p hist pos lag 0 * farAt p hist pos lag 0) eps := by
  unfold farPowF
  rw [h, Finset.sum_range_one]

theorem accumAt_block_one {p : Params} (h : p.blockSamples = 1)
    (hist : List ℚ) (pos : ℕ) (mic : List ℚ) (lag : ℕ) :
    accumAt p hist pos mic lag = |farAt p hist pos lag 0 - mic.getD 0 0| := by
  unfold accumAt
  rw [h, Finset.sum_range_one]

/-! ### Concrete lag-search scenarios at the small parameter set -/

theorem tiny_far0_window0 :
    farAt tinyParams (postHist tinyParams (initState tinyParams) [1])
      (postPos tinyParams (initState tinyParams) [1]) 0 0 = 1 := by decide

theorem tiny_far0_window1 :
    farAt tinyParams (postHist tinyParams (initState tinyParams) [1])
      (postPos tinyParams (initState tinyParams) [1]) 1 0 = 0 := by decide

/-- Witness for C5, at a genuine tie: after pushing far block `[1]` into the
zero history with microphone block `[0]`, lags 1 and 2 both score exactly 1
(their windows are all-zero, as is the microphone block), and the reported
winner is `≤ 2` (the earlier tying lag). -/
theorem lag_search_order_and_tiebreak_witness :
    (bestOf tinyParams (initState tinyParams) [1] [0]).2.1 ≤ 2 := by
  have hs2 : scoreOf tinyParams (initState tinyParams) [1] [0] 2 = 1 :=
    scoreAt_eq_one_of_match tinyParams _ _ [0] 2 (by decide)
  have hb : (bestOf tinyParams (initState tinyParams) [1] [0]).1 = 1 :=
    bestScore_eq_one tinyParams (initState tinyParams) [1] [0] 2 (by decide) hs2
  exact (lag_search_order_and_tiebreak tinyParams (initState tinyParams) [1] [0]).2.2.2.2.2.2
    2 (by decide) (hs2.trans hb.symm)

/-- Witness for C6 (amended): in the same scenario the microphone block
`[0]` equals the reference window at lag 1, lag 0 scores strictly below 1,
the power-ratio condition holds at lag 1, and the call indeed reports
lag 1 with echo declared. -/
theorem perfect_echo_selected_witness :
    (processBlock tinyParams (initState tinyParams) [1] [0]).1.lag = (1 : ℤ) ∧
    (processBlock tinyParams (initState tinyParams) [1] [0]).1.detected = true := by
  have h := perfect_echo_selected tinyParams (initState tinyParams) [1] [0] 1
    (by decide)
    (by decide)
    (by
      intro l hl hlt
      have hl0 : l = 0 := by omega
      subst hl0
      apply scoreAt_lt_one
      rw [accumAt_block_one rfl, tiny_far0_window0,
        show ([0] : List ℚ).getD 0 0 = 0 from rfl]
      norm_num)
    (by norm_num [tinyParams])
    (by
      rw [show micPow tinyParams [0] = max ((0:ℚ) * 0) eps from micPow_block_one rfl [0],
        show farPowOf tinyParams (initState tinyParams) [1] 1 =
          max (farAt tinyParams (postHist tinyParams (initState tinyParams) [1])
            (postPos tinyParams (initState tinyParams) [1]) 1 0 *
            farAt tinyParams (postHist tinyParams (initState tinyParams) [1])
            (postPos tinyParams (initState tinyParams) [1]) 1 0) eps from
          farPowF_block_one rfl _ _ 1,
        tiny_far0_window1]
      norm_num [eps, tinyParams])
  exact ⟨h.2.2.2, h.2.2.1⟩

theorem tiny_cex_window0 :
    farAt tinyParams (postHist tinyParams twoPushState [1])
      (postPos tinyParams twoPushState [1]) 0 0 = 1 := by decide

theorem tiny_cex_window2 :
    farAt tinyParams (postHist tinyParams twoPushState [1])
      (postPos tinyParams twoPushState [1]) 2 0 = 1 := by decide

/-- Claim C6, counterexample. With the constant far-end signal
`[1],[1],[1]` and microphone block `[1]`, the microphone block equals the
reference delivered `L = 2` samples earlier (`L ≤ maxLag`, a multiple of
the step) and the power-ratio condition holds at lag 2 — the claim's
premises — yet the search reports lag 0, not 2 (echo is still declared):
with a reference that matches at several lags the claim's "selects
lag = L" fails. -/
theorem perfect_echo_claim_counterexample :
    (2 : ℕ) ∈ candidates tinyParams ∧
    ([1] : List ℚ).getD 0 0 =
      farAt tinyParams (postHist tinyParams twoPushState [1])
        (postPos tinyParams twoPushState [1]) 2 0 ∧
    micPow tinyParams [1] <
      tinyParams.powerRatioAlpha * farPowOf tinyParams twoPushState [1] 2 ∧
    (processBlock tinyParams twoPushState [1] [1]).1.detected = true ∧
    (processBlock tinyParams twoPushState [1] [1]).1.lag = 0 ∧
    (processBlock tinyParams twoPushState [1] [1]).1.lag ≠ 2 := by
  have hs0 : scoreOf tinyParams twoPushState [1] [1] 0 = 1 :=
    scoreAt_eq_one_of_match tinyParams _ _ [1] 0 (by decide)
  have hb1 : (bestOf tinyParams twoPushState [1] [1]).1 = 1 :=
    bestScore_eq_one tinyParams twoPushState [1] [1] 0 (by decide) hs0
  have hble : (bestOf tinyParams twoPushState [1] [1]).2.1 ≤ 0 :=
    searchBest_min_tie tinyParams _ _ [1] 0 (by decide) (hs0.trans hb1.symm)
  have hbeq : (bestOf tinyParams twoPushState [1] [1]).2.1 = 0 := Nat.le_zero.mp hble
  have hpow0 : micPow tinyParams [1] <
      tinyParams.powerRatioAlpha * farPowOf tinyParams twoPushState [1] 0 := by
    rw [show micPow tinyParams [1] = max ((1:ℚ) * 1) eps from micPow_block_one rfl [1],
      show farPowOf tinyParams twoPushState [1] 0 =
        max (farAt tinyParams (postHist tinyParams twoPushState [1])
          (postPos tinyParams twoPushState [1]) 0 0 *
          farAt tinyParams (postHist tinyParams twoPushState [1])
          (postPos tinyParams twoPushState [1]) 0 0) eps from farPowF_block_one rfl _ _ 0,
      tiny_cex_window0]
    norm_num [eps, tinyParams]
  have hdet : (processBlock tinyParams twoPushState [1] [1]).1.detected = true := by
    rw [processBlock_detected_iff]
    refine ⟨by rw [hb1]; norm_num [tinyParams], ?_⟩
    rw [hbeq]
    exact hpow0
  have hlag : (processBlock tinyParams twoPushState [1] [1]).1.lag = 0 := by
    rw [processBlock_lag, if_pos hdet, hbeq]
    rfl
  refine ⟨by decide, by rw [tiny_cex_window2]; rfl, ?_, hdet, hlag, by rw [hlag]; decide⟩
  rw [show micPow tinyParams [1] = max ((1:ℚ) * 1) eps from micPow_block_one rfl [1],
    show farPowOf tinyParams twoPushState [1] 2 =
      max (farAt tinyParams (postHist tinyParams twoPushState [1])
        (postPos tinyParams twoPushState [1]) 2 0 *
        farAt tinyParams (postHist tinyParams twoPushState [1])
        (postPos tinyParams twoPushState [1]) 2 0) eps from farPowF_block_one rfl _ _ 2,
    tiny_cex_window2]
  norm_num [eps, tinyParams]

/-! ### Hangover control across a run -/

theorem runResults_cons (p : Params) (st : SupState) (far mic : List ℚ)
    (rest : List (List ℚ × List ℚ)) :
    runResults p st ((far, mic) :: rest) =
      (processBlock p st far mic).1 ::
        runResults p (processBlock p st far mic).2 rest := rfl

/-- A block with an all-zero history, an all-zero (normalized) far block and
a microphone power too large for the floored reference power is not
detected, and the history stays all-zero. -/
theorem processBlock_detected_false (p : Params) (st : SupState) (far mic : List ℚ)
    (hh : ∀ j, st.farHist.getD j 0 = 0)
    (hfar : ∀ x ∈ blockOf p far, x = 0)
    (hpow : ¬micPow p mic < p.powerRatioAlpha * eps) :
    (processBlock p st far mic).1.detected = false ∧
    ∀ j, (processBlock p st far mic).2.farHist.getD j 0 = 0 := by
  have hz : ∀ j, (postHist p st far).getD j 0 = 0 := pushSamples_zero _ hfar _ _ hh
  refine ⟨?_, fun j => by rw [processBlock_state_hist]; exact hz j⟩
  by_contra hne
  have hdet : (processBlock p st far mic).1.detected = true := by
    revert hne
    cases (processBlock p st far mic).1.detected <;> simp
  have h2 := ((processBlock_detected_iff p st far mic).mp hdet).2
  apply hpow
  rw [show farPowOf p st far (bestOf p st far mic).2.1 = eps from
    farPowF_zero_hist p (postPos p st far) _ hz] at h2
  exact h2

/-- Along a run with no detection, the `j`-th call is suppressed exactly
while the entry hangover counter exceeds `j` (the counter decrements once
per non-detected block and suppression holds while it was positive). -/
theorem runResults_nondet (p : Params) (inputs : List (List ℚ × List ℚ)) :
    ∀ st : SupState, 0 ≤ st.hangCnt →
      (∀ r ∈ runResults p st inputs, r.detected = false) →
      ∀ j, j < inputs.length →
        ((runResults p st inputs).getD j default).suppress =
          decide ((j : ℤ) < st.hangCnt) := by
  induction inputs with
  | nil =>
    intro st h0 hall j hj
    simp at hj
  | cons q rest ih =>
    obtain ⟨far, mic⟩ := q
    intro st h0 hall j hj
    rw [runResults_cons] at hall
    have hd : (processBlock p st far mic).1.detected = false :=
      hall _ (List.mem_cons_self _ _)
    have hsupp : (processBlock p st far mic).1.suppress = decide ((0:ℤ) < st.hangCnt) := by
      rw [processBlock_suppress, hd]
      unfold hangoverUpdate
      rcases lt_or_ge 0 st.hangCnt with hpos | hneg
      · rw [if_neg (by simp), if_pos hpos]
        simp [hpos]
      · rw [if_neg (by simp), if_neg (not_lt.mpr hneg)]
        simp [not_lt.mpr hneg]
    have hcnt' : (processBlock p st far mic).2.hangCnt =
        if 0 < st.hangCnt then st.hangCnt - 1 else st.hangCnt := by
      rw [processBlock_hangCnt, hd]
      unfold hangoverUpdate
      rcases lt_or_ge 0 st.hangCnt with hpos | hneg
      · rw [if_neg (by simp), if_pos hpos, if_pos hpos]
      · rw [if_neg (by simp), if_neg (not_lt.mpr hneg), if_neg (not_lt.mpr hneg)]
    rcases j with _ | j
    · rw [runResults_cons, List.getD_cons_zero]
      simpa using hsupp
    · rw [runResults_cons, List.getD_cons_succ]
      have hall' : ∀ r ∈ runResults p (processBlock p st far mic).2 rest,
          r.detected = false := fun r hr => hall _ (List.mem_cons_of_mem _ hr)
      have h0' : 0 ≤ (processBlock p st far mic).2.hangCnt := by
        rw [hcnt']
        split_ifs <;> omega
      have hj' : j < rest.length := by simpa using hj
      rw [ih _ h0' hall' j hj', hcnt']
      rcases lt_or_ge 0 st.hangCnt with hpos | hneg
      · rw [if_pos hpos, decide_eq_decide]
        push_cast
        omega
      · rw [if_neg (not_lt.mpr hneg), decide_eq_decide]
        push_cast
        omega

/-- Claim C3, amended. For a configured hangover length `H ≥ 1`, a detected
block reloads the counter to `H` and is suppressed; on the following run of
non-detected blocks, the `k`-th (1-indexed, `k = j+1`) is suppressed iff
`j < H` — i.e. suppression persists for exactly the `H` following
non-detected blocks and is released on the `(H+1)`-th, one block later
than the original claim states. -/
theorem hangover_persists (p : Params) (st : SupState) (far mic : List ℚ)
    (inputs : List (List ℚ × List ℚ))
    (hH : 1 ≤ p.hangoverBlocks)
    (hdet : (processBlock p st far mic).1.detected = true)
    (hrest : ∀ r ∈ runResults p (processBlock p st far mic).2 inputs,
      r.detected = false) :
    (processBlock p st far mic).1.suppress = true ∧
    ∀ j, j < inputs.length →
      ((runResults p (processBlock p st far mic).2 inputs).getD j default).suppress =
        decide ((j : ℤ) < p.hangoverBlocks) := by
  have hcnt : (processBlock p st far mic).2.hangCnt = p.hangoverBlocks := by
    rw [processBlock_hangCnt, hdet]
    rfl
  refine ⟨by rw [processBlock_suppress, hdet]; rfl, ?_⟩
  intro j hj
  rw [runResults_nondet p inputs _ (by rw [hcnt]; omega) hrest j hj, hcnt]

theorem hangOne_nondet_power : ¬micPow hangOneParams [5] <
    hangOneParams.powerRatioAlpha * eps := by
  rw [micPow_block_one rfl]
  norm_num [eps, hangOneParams, tinyParams]

/-- Witness for C3 (amended), at `H = 1`: after a detected (all-zero)
block, the first non-detected block is still suppressed
(`decide (0 < 1) = true`) and the second is released (`decide (1 < 1) =
false`). -/
theorem hangover_persists_witness :
    ((runResults hangOneParams hangOneAfterDetect hangOneInputs).getD 0
      default).suppress = decide ((0 : ℤ) < hangOneParams.hangoverBlocks) ∧
    ((runResults hangOneParams hangOneAfterDetect hangOneInputs).getD 1
      default).suppress = decide ((1 : ℤ) < hangOneParams.hangoverBlocks) := by
  have hz := processBlock_zeroIn hangOneParams (initState hangOneParams)
    (fun j => getD_replicate) (by norm_num [hangOneParams, tinyParams])
    (by norm_num [hangOneParams, tinyParams])
  have hst1 : ∀ j, hangOneAfterDetect.farHist.getD j 0 = 0 := hz.2.2.2.2.1
  have hb1 := processBlock_detected_false hangOneParams hangOneAfterDetect [0] [5]
    hst1 (by decide) hangOne_nondet_power
  have hb2 := processBlock_detected_false hangOneParams
    (processBlock hangOneParams hangOneAfterDetect [0] [5]).2 [0] [5]
    hb1.2 (by decide) hangOne_nondet_power
  have hrest : ∀ r ∈ runResults hangOneParams hangOneAfterDetect hangOneInputs,
      r.detected = false := by
    intro r hr
    rw [show hangOneInputs = ([0], [5]) :: ([0], [5]) :: [] from rfl,
      runResults_cons, runResults_cons] at hr
    rcases List.mem_cons.mp hr with rfl | hr
    · exact hb1.1
    · rcases List.mem_cons.mp hr with rfl | hr
      · exact hb2.1
      · exact absurd hr (List.not_mem_nil r)
  have hmain := hangover_persists hangOneParams (initState hangOneParams)
    (zeroIn hangOneParams) (zeroIn hangOneParams) hangOneInputs
    (by decide) hz.1 hrest
  exact ⟨hmain.2 0 (by decide), hmain.2 1 (by decide)⟩

/-- Claim C3, counterexample. With configured hangover length `H = 1`, a
detected block followed by a non-detected block keeps suppression active on
that first non-detected block (counter 1 → 0, suppress still true), whereas
the claim says suppression is released on the `H`-th = 1st non-detected
block. -/
theorem hangover_claim_counterexample :
    hangOneParams.hangoverBlocks = 1 ∧
    (processBlock hangOneParams (initState hangOneParams)
      (zeroIn hangOneParams) (zeroIn hangOneParams)).1.detected = true ∧
    (processBlock hangOneParams hangOneAfterDetect [0] [5]).1.detected = false ∧
    (processBlock hangOneParams hangOneAfterDetect [0] [5]).1.suppress = true := by
  have hz := processBlock_zeroIn hangOneParams (initState hangOneParams)
    (fun j => getD_replicate) (by norm_num [hangOneParams, tinyParams])
    (by norm_num [hangOneParams, tinyParams])
  have hst1 : ∀ j, hangOneAfterDetect.farHist.getD j 0 = 0 := hz.2.2.2.2.1
  have hb1 := processBlock_detected_false hangOneParams hangOneAfterDetect [0] [5]
    hst1 (by decide) hangOne_nondet_power
  have hcnt : hangOneAfterDetect.hangCnt = 1 := by
    show (processBlock hangOneParams (initState hangOneParams)
      (zeroIn hangOneParams) (zeroIn hangOneParams)).2.hangCnt = 1
    rw [processBlock_hangCnt, hz.1]
    rfl
  have hsup : (processBlock hangOneParams hangOneAfterDetect [0] [5]).1.suppress = true := by
    rw [processBlock_suppress, hb1.1, hcnt]
    rfl
  exact ⟨rfl, hz.1, hb1.1, hsup⟩

/-! ### State invariant (C8) and configuration clamping (C9) -/

/-- Claim C8, amended. With attack and release coefficients in `[0,1]`, a
non-negative configured hangover length, and — the premise the original
claim omits — a muted linear gain `≤ 1`, the invariant
`gain ∈ [mutedLinearGain, 1]` and `hangCnt ≥ 0` holds after construction
and after reset, is preserved by every call, and the gain returned to the
caller lies in `[mutedLinearGain, 1]`. -/
theorem state_invariant (p : Params)
    (ha0 : 0 ≤ p.attack) (ha1 : p.attack ≤ 1)
    (hr0 : 0 ≤ p.release) (hr1 : p.release ≤ 1)
    (hH : 0 ≤ p.hangoverBlocks) (hAtt : p.attenLinear ≤ 1) :
    GoodState p (initState p) ∧
    (∀ st, GoodState p (resetState st)) ∧
    ∀ st far mic, GoodState p st →
      GoodState p (processBlock p st far mic).2 ∧
      p.attenLinear ≤ (processBlock p st far mic).1.gain ∧
      (processBlock p st far mic).1.gain ≤ 1 := by
  refine ⟨⟨hAtt, le_refl 1, le_refl 0⟩, fun st => ⟨hAtt, le_refl 1, le_refl 0⟩, ?_⟩
  intro st far mic hst
  obtain ⟨hg1, hg2, hcnt⟩ := hst
  have htar1 : p.attenLinear ≤ targetGain p (processBlock p st far mic).1.suppress := by
    unfold targetGain
    split_ifs
    · exact le_refl _
    · exact hAtt
  have htar2 : targetGain p (processBlock p st far mic).1.suppress ≤ 1 := by
    unfold targetGain
    split_ifs
    · exact hAtt
    · exact le_refl 1
  have hcb : 0 ≤ smoothCoeff p (targetGain p (processBlock p st far mic).1.suppress)
      st.gateGain ∧
      smoothCoeff p (targetGain p (processBlock p st far mic).1.suppress) st.gateGain ≤ 1 := by
    unfold smoothCoeff
    split_ifs
    · exact ⟨ha0, ha1⟩
    · exact ⟨hr0, hr1⟩
  have hgain := processBlock_gain p st far mic
  have hlow : p.attenLinear ≤ (processBlock p st far mic).1.gain := by
    rw [hgain]
    nlinarith [mul_nonneg (by linarith [hcb.2] : (0:ℚ) ≤
        1 - smoothCoeff p (targetGain p (processBlock p st far mic).1.suppress) st.gateGain)
      (by linarith : (0:ℚ) ≤ st.gateGain - p.attenLinear),
      mul_nonneg hcb.1 (by linarith : (0:ℚ) ≤
        targetGain p (processBlock p st far mic).1.suppress - p.attenLinear)]
  have hhigh : (processBlock p st far mic).1.gain ≤ 1 := by
    rw [hgain]
    nlinarith [mul_nonneg (by linarith [hcb.2] : (0:ℚ) ≤
        1 - smoothCoeff p (targetGain p (processBlock p st far mic).1.suppress) st.gateGain)
      (by linarith : (0:ℚ) ≤ 1 - st.gateGain),
      mul_nonneg hcb.1 (by linarith : (0:ℚ) ≤
        1 - targetGain p (processBlock p st far mic).1.suppress)]
  have hcnt' : 0 ≤ (processBlock p st far mic).2.hangCnt := by
    rw [processBlock_hangCnt]
    unfold hangoverUpdate
    split_ifs with h1 h2
    · exact hH
    · omega
    · exact hcnt
  exact ⟨⟨by rw [processBlock_state_gain]; exact hlow,
    by rw [processBlock_state_gain]; exact hhigh, hcnt'⟩, hlow, hhigh⟩

/-- Witness for C8 (amended): the invariant holds after one call at the
real constants, starting from the constructor state. -/
theorem state_invariant_witness :
    GoodState kSuppressor (processBlock kSuppressor (initState kSuppressor)
      (zeroIn kSuppressor) (zeroIn kSuppressor)).2 :=
  ((state_invariant kSuppressor (by norm_num [kSuppressor]) (by norm_num [kSuppressor])
    (by norm_num [kSuppressor]) (by norm_num [kSuppressor]) (by decide)
    (by norm_num [kSuppressor])).2.2 (initState kSuppressor)
    (zeroIn kSuppressor) (zeroIn kSuppressor)
    ⟨by norm_num [kSuppressor, initState], le_refl 1, le_refl 0⟩).1

/-- Claim C8, counterexample. A configuration with muted linear gain 2
(`atten_db = +6 dB`, accepted by the CLI and `set_config`) satisfies every
premise the claim states — attack and release in `[0,1]`, non-negative
hangover — yet the gain after construction is 1, outside `[2, 1]`: the
claim omits the premise `mutedLinearGain ≤ 1`. -/
theorem state_invariant_claim_counterexample :
    0 ≤ bigAttenParams.attack ∧ bigAttenParams.attack ≤ 1 ∧
    0 ≤ bigAttenParams.release ∧ bigAttenParams.release ≤ 1 ∧
    0 ≤ bigAttenParams.hangoverBlocks ∧
    (initState bigAttenParams).gateGain = 1 ∧
    ¬bigAttenParams.attenLinear ≤ (initState bigAttenParams).gateGain := by
  refine ⟨by norm_num [bigAttenParams, tinyParams], by norm_num [bigAttenParams, tinyParams],
    by norm_num [bigAttenParams, tinyParams], by norm_num [bigAttenParams, tinyParams],
    by decide, rfl, by norm_num [bigAttenParams, tinyParams, initState]⟩

/-- Claim C9, amended. `set_config` clamps only the derived linear gain
(negative values of the computed `pow` result are clamped to 0, so the
stored muted linear gain is always `≥ 0`) and stores the configuration
record itself unchanged — a negative hangover length survives
`set_config`; the clamp of negative hangover lengths to zero happens in the
command-line parsing in `main` (`std::max(0, …)`), not in `set_config`. -/
theorem set_config_behavior (c : ConfigIn) (powValue : ℚ) (v : ℤ) :
    0 ≤ (set_config c powValue).atten_linear ∧
    (set_config c powValue).config = c ∧
    0 ≤ parseHangOption v := by
  refine ⟨?_, rfl, le_max_left 0 v⟩
  unfold set_config
  dsimp only
  split_ifs with h
  · exact le_refl 0
  · exact not_lt.mp h

/-- Claim C9, counterexample. `set_config` applied to a configuration with
hangover length `-1` stores `-1` unchanged: after `set_config` the
effective hangover length is NOT `≥ 0` for every configuration input
(the clamp the claim attributes to configuration application lives in the
CLI parser, not in `set_config`). -/
theorem set_config_claim_counterexample :
    (set_config ⟨3/5, 13/10, -80, -1, 1/10, 1/100⟩ (1/10000)).config.hangover_blocks = -1 ∧
    ¬0 ≤ (set_config ⟨3/5, 13/10, -80, -1, 1/10, 1/100⟩ (1/10000)).config.hangover_blocks :=
  ⟨rfl, by decide⟩

/-! ### The circular reference history (C7) -/

/-- Advancing the cursor by one position shifts every relative read by one. -/
theorem wrapIndex_push_shift (L pos : ℕ) (off : ℤ) (_hL : 0 < L) :
    wrapIndex L ((pos + 1) % L) (off - 1) = wrapIndex L pos off := by
  unfold wrapIndex
  congr 1
  have hcast : (((pos + 1) % L : ℕ) : ℤ) = ((pos : ℤ) + 1) % (L : ℤ) := by
    push_cast
    ring
  rw [hcast, Int.emod_add_emod]
  congr 1
  ring

/-- Reading strictly between 1 and `L-1` positions behind the cursor does
not land on the cursor position itself. -/
theorem wrapIndex_ne_pos {L pos k : ℕ} (hpos : pos < L) (hk1 : 1 ≤ k) (hkL : k < L) :
    wrapIndex L pos (-(k : ℤ)) ≠ pos := by
  unfold wrapIndex
  intro hEq
  have hLn : 0 < L := lt_of_le_of_lt (Nat.zero_le k) hkL
  have hL : (0 : ℤ) < (L : ℤ) := by exact_mod_cast hLn
  have hm0 : 0 ≤ ((pos : ℤ) + -(k : ℤ)) % (L : ℤ) := Int.emod_nonneg _ (ne_of_gt hL)
  have hmeq : ((pos : ℤ) + -(k : ℤ)) % (L : ℤ) = (pos : ℤ) := by
    have h1 : ((((pos : ℤ) + -(k : ℤ)) % (L : ℤ)).toNat : ℤ) = ((pos : ℕ) : ℤ) := by
      rw [hEq]
    rw [Int.toNat_of_nonneg hm0] at h1
    exact h1
  have h2 : ((pos : ℤ) + -(k : ℤ)) % (L : ℤ) = (pos : ℤ) % (L : ℤ) := by
    rw [hmeq, Int.emod_eq_of_lt (Int.natCast_nonneg pos) (by exact_mod_cast hpos)]
  have h4 : (L : ℤ) ∣ ((pos : ℤ) + -(k : ℤ) - (pos : ℤ)) :=
    Int.dvd_of_emod_eq_zero (Int.emod_eq_emod_iff_emod_sub_eq_zero.mp h2)
  have h5 : (L : ℤ) ∣ (k : ℤ) := by
    have hsimp : ((pos : ℤ) + -(k : ℤ) - (pos : ℤ)) = -(k : ℤ) := by ring
    rw [hsimp] at h4
    exact dvd_neg.mp h4
  have h6 : (L : ℤ) ≤ (k : ℤ) := Int.le_of_dvd (by exact_mod_cast hk1) h5
  omega

/-- After writing `x` at the cursor and advancing, reading 1 position back
returns `x`. -/
theorem readBack_set_zero (hist : List ℚ) (pos : ℕ) (x : ℚ) (hpos : pos < hist.length) :
    readBack (hist.set pos x) ((pos + 1) % hist.length) 0 = x := by
  unfold readBack
  rw [List.length_set]
  have hL0 : 0 < hist.length := lt_of_le_of_lt (Nat.zero_le _) hpos
  have hw : wrapIndex hist.length ((pos + 1) % hist.length) (-(1 + (0 : ℤ))) = pos := by
    rw [show (-(1 + (0 : ℤ))) = (0 : ℤ) - 1 by ring, wrapIndex_push_shift _ _ _ hL0]
    unfold wrapIndex
    rw [add_zero, Int.emod_eq_of_lt (Int.natCast_nonneg pos) (by exact_mod_cast hpos)]
    exact Int.toNat_natCast pos
  simp only [Nat.cast_zero]
  rw [hw, List.getD_eq_getElem?_getD, List.getElem?_set_self hpos]
  rfl

/-- After writing `x` at the cursor and advancing, reading `k+1` positions
back (`1 ≤ k < L`) is reading `k` positions back before the write. -/
theorem readBack_set_step (hist : List ℚ) (pos : ℕ) (x : ℚ) (k : ℕ)
    (hpos : pos < hist.length) (hk1 : 1 ≤ k) (hkL : k < hist.length) :
    readBack (hist.set pos x) ((pos + 1) % hist.length) k = readBack hist pos (k - 1) := by
  unfold readBack
  rw [List.length_set]
  have hL0 : 0 < hist.length := lt_of_le_of_lt (Nat.zero_le _) hpos
  have hsh : wrapIndex hist.length ((pos + 1) % hist.length) (-(1 + (k : ℤ))) =
      wrapIndex hist.length pos (-(k : ℤ)) := by
    rw [show (-(1 + (k : ℤ))) = -(k : ℤ) - 1 by ring]
    exact wrapIndex_push_shift _ _ _ hL0
  rw [hsh]
  have hne : wrapIndex hist.length pos (-(k : ℤ)) ≠ pos := wrapIndex_ne_pos hpos hk1 hkL
  rw [List.getD_eq_getElem?_getD, List.getElem?_set_ne (Ne.symm hne),
    ← List.getD_eq_getElem?_getD]
  congr 1
  unfold wrapIndex
  congr 2
  omega

/-- Full specification of the push loop: length is preserved, the cursor
advances by the batch length modulo capacity, reads within the batch
return the batch samples (most recent first), and older reads shift by the
batch length. -/
theorem pushSamples_spec (xs : List ℚ) :
    ∀ (hist : List ℚ) (pos : ℕ), xs.length ≤ hist.length → pos < hist.length →
      (pushSamples hist pos xs).1.length = hist.length ∧
      (pushSamples hist pos xs).2 = (pos + xs.length) % hist.length ∧
      (∀ j, j < xs.length →
        readBack (pushSamples hist pos xs).1 (pushSamples hist pos xs).2 j =
          xs.getD (xs.length - 1 - j) 0) ∧
      (∀ j, xs.length ≤ j → j < hist.length →
        readBack (pushSamples hist pos xs).1 (pushSamples hist pos xs).2 j =
          readBack hist pos (j - xs.length)) := by
  induction xs with
  | nil =>
    intro hist pos hle hpos
    refine ⟨rfl, ?_, ?_, ?_⟩
    · show pos = (pos + 0) % hist.length
      rw [Nat.add_zero, Nat.mod_eq_of_lt hpos]
    · intro j hj
      exact absurd hj (Nat.not_lt_zero j)
    · intro j h0 hj
      show readBack hist pos j = readBack hist pos (j - 0)
      rw [Nat.sub_zero]
  | cons x xs ih =>
    intro hist pos hle hpos
    have hL0 : 0 < hist.length := lt_of_le_of_lt (Nat.zero_le pos) hpos
    have hlen1 : (hist.set pos x).length = hist.length := List.length_set hist pos x
    have hxele : xs.length + 1 ≤ hist.length := by
      simpa using hle
    have hle' : xs.length ≤ (hist.set pos x).length := by
      rw [hlen1]
      omega
    have hpos' : (pos + 1) % hist.length < (hist.set pos x).length := by
      rw [hlen1]
      exact Nat.mod_lt _ hL0
    have hstep : pushSamples hist pos (x :: xs) =
        pushSamples (hist.set pos x) ((pos + 1) % hist.length) xs := rfl
    obtain ⟨ihlen, ihpos, ihnew, ihold⟩ :=
      ih (hist.set pos x) ((pos + 1) % hist.length) hle' hpos'
    rw [hlen1] at ihlen
    refine ⟨by rw [hstep]; exact ihlen, ?_, ?_, ?_⟩
    · rw [hstep, ihpos, hlen1, Nat.mod_add_mod]
      congr 1
      simp only [List.length_cons]
      omega
    · intro j hj
      simp only [List.length_cons] at hj
      rw [hstep]
      rcases Nat.lt_or_ge j xs.length with hjlt | hjge
      · rw [ihnew j hjlt]
        have hidx : (x :: xs).length - 1 - j = (xs.length - 1 - j) + 1 := by
          simp only [List.length_cons]
          omega
        rw [hidx, List.getD_cons_succ]
      · have hjeq : j = xs.length := by omega
        subst hjeq
        rw [ihold _ (le_refl _) (by rw [hlen1]; omega), Nat.sub_self,
          readBack_set_zero hist pos x hpos]
        have hidx : (x :: xs).length - 1 - xs.length = 0 := by
          simp only [List.length_cons]
          omega
        rw [hidx, List.getD_cons_zero]
    · intro j hjge hjlt
      simp only [List.length_cons] at hjge
      rw [hstep, ihold j (by omega) (by rw [hlen1]; exact hjlt)]
      have hk1 : 1 ≤ j - xs.length := by omega
      have hkL : j - xs.length < hist.length := by omega
      rw [readBack_set_step hist pos x (j - xs.length) hpos hk1 hkL]
      congr 1

theorem blockOf_length (p : Params) (xs : List ℚ) :
    (blockOf p xs).length = p.blockSamples := by
  unfold blockOf
  simp

theorem farStream_nil (p : Params) : farStream p [] = [] := rfl

theorem farStream_snoc (p : Params) (inputs : List (List ℚ × List ℚ))
    (q : List ℚ × List ℚ) :
    farStream p (inputs ++ [q]) = farStream p inputs ++ blockOf p q.1 := by
  unfold farStream
  rw [List.map_append, List.flatten_append]
  simp

theorem farStream_length (p : Params) :
    ∀ inputs : List (List ℚ × List ℚ),
      (farStream p inputs).length = inputs.length * p.blockSamples := by
  intro inputs
  induction inputs with
  | nil => simp [farStream]
  | cons q rest ih =>
    show (blockOf p q.1 ++ farStream p rest).length = _
    rw [List.length_append, blockOf_length, ih]
    simp only [List.length_cons]
    ring

theorem processRun_snoc (p : Params) (st : SupState)
    (inputs : List (List ℚ × List ℚ)) (q : List ℚ × List ℚ) :
    processRun p st (inputs ++ [q]) =
      (processBlock p (processRun p st inputs) q.1 q.2).2 := by
  induction inputs generalizing st with
  | nil =>
    obtain ⟨far, mic⟩ := q
    rfl
  | cons r rest ih =>
    obtain ⟨far, mic⟩ := r
    show processRun p (processBlock p st far mic).2 (rest ++ [q]) = _
    rw [ih]
    rfl

/-- The run-level history characterization: after any number of calls from
the constructor state, the history holds exactly the most recent
`capacity` (normalized) far-end samples, zero-padded, and the cursor has
advanced by `blockLength` per call modulo capacity. -/
theorem processRun_hist_spec (p : Params) (hb : 1 ≤ p.blockSamples)
    (inputs : List (List ℚ × List ℚ)) :
    (processRun p (initState p) inputs).farHist.length = p.histLen ∧
    (processRun p (initState p) inputs).histPos =
      (inputs.length * p.blockSamples) % p.histLen ∧
    ∀ j, j < p.histLen →
      readBack (processRun p (initState p) inputs).farHist
        (processRun p (initState p) inputs).histPos j =
        if j < inputs.length * p.blockSamples then
          (farStream p inputs).getD (inputs.length * p.blockSamples - 1 - j) 0
        else 0 := by
  have hL0 : 0 < p.histLen := by
    unfold Params.histLen
    omega
  have hbL : p.blockSamples ≤ p.histLen := by
    unfold Params.histLen
    omega
  induction inputs using List.reverseRecOn with
  | nil =>
    refine ⟨by simp [processRun, initState], by simp [processRun, initState], ?_⟩
    intro j hj
    show readBack (List.replicate p.histLen 0) 0 j = _
    unfold readBack
    rw [getD_replicate]
    simp
  | append_singleton rest q ihAll =>
    obtain ⟨ihlen, ihpos, ihread⟩ := ihAll
    have hposlt : (processRun p (initState p) rest).histPos < p.histLen := by
      rw [ihpos]
      exact Nat.mod_lt _ hL0
    have hspec := pushSamples_spec (blockOf p q.1)
      (processRun p (initState p) rest).farHist
      (processRun p (initState p) rest).histPos
      (by rw [blockOf_length, ihlen]; exact hbL)
      (by rw [ihlen]; exact hposlt)
    obtain ⟨slen, spos, snew, sold⟩ := hspec
    have hrun : processRun p (initState p) (rest ++ [q]) =
        (processBlock p (processRun p (initState p) rest) q.1 q.2).2 :=
      processRun_snoc p (initState p) rest q
    have hhist : (processRun p (initState p) (rest ++ [q])).farHist =
        (pushSamples (processRun p (initState p) rest).farHist
          (processRun p (initState p) rest).histPos (blockOf p q.1)).1 := by
      rw [hrun, processBlock_state_hist]
      rfl
    have hcur : (processRun p (initState p) (rest ++ [q])).histPos =
        (pushSamples (processRun p (initState p) rest).farHist
          (processRun p (initState p) rest).histPos (blockOf p q.1)).2 := by
      rw [hrun, processBlock_state_pos]
      rfl
    have hlen' : (processRun p (initState p) (rest ++ [q])).farHist.length = p.histLen := by
      rw [hhist, slen, ihlen]
    have hm : (rest ++ [q]).length * p.blockSamples =
        rest.length * p.blockSamples + p.blockSamples := by
      rw [List.length_append, List.length_singleton]
      ring
    refine ⟨hlen', ?_, ?_⟩
    · rw [hcur, spos, blockOf_length, ihlen, ihpos, Nat.mod_add_mod, hm]
    · intro j hj
      rw [hhist, hcur]
      rcases Nat.lt_or_ge j p.blockSamples with hjb | hjb
      · rw [snew j (by rw [blockOf_length]; exact hjb), blockOf_length]
        rw [if_pos (by omega : j < (rest ++ [q]).length * p.blockSamples)]
        rw [farStream_snoc]
        have hsl : (farStream p rest).length = rest.length * p.blockSamples :=
          farStream_length p rest
        rw [List.getD_append_right _ _ _ _ (by rw [hsl, hm]; omega)]
        congr 1
        rw [hsl, hm]
        omega
      · rw [sold j (by rw [blockOf_length]; exact hjb) (by rw [ihlen]; exact hj),
          blockOf_length, ihread (j - p.blockSamples) (by omega)]
        rw [hm, farStream_snoc]
        have hsl : (farStream p rest).length = rest.length * p.blockSamples :=
          farStream_length p rest
        rcases Nat.lt_or_ge (j - p.blockSamples) (rest.length * p.blockSamples) with hc | hc
        · rw [if_pos hc, if_pos (by omega)]
          rw [List.getD_append _ _ _ _ (by rw [hsl]; omega)]
          congr 1
          omega
        · rw [if_neg (by omega), if_neg (by omega)]

/-- Claim C7. The reference history: capacity `maxLagSamples + 4·blockLength`,
zero-filled at construction; each call writes the `blockLength` (normalized)
far-end samples at the cursor and advances it by `blockLength` modulo
capacity, keeping it strictly below capacity; after any run from the
constructor state the buffer holds exactly the most recent `capacity`
far-end samples, zero-padded before enough data has arrived. -/
theorem reference_history_ring (p : Params) (hb : 1 ≤ p.blockSamples)
    (inputs : List (List ℚ × List ℚ)) :
    p.histLen = p.maxLagSamples + 4 * p.blockSamples ∧
    (initState p).farHist = List.replicate p.histLen 0 ∧
    (∀ st far mic, st.farHist.length = p.histLen → st.histPos < p.histLen →
      (processBlock p st far mic).2.farHist.length = p.histLen ∧
      (processBlock p st far mic).2.histPos =
        (st.histPos + p.blockSamples) % p.histLen) ∧
    (processRun p (initState p) inputs).farHist.length = p.histLen ∧
    (processRun p (initState p) inputs).histPos =
      (inputs.length * p.blockSamples) % p.histLen ∧
    (processRun p (initState p) inputs).histPos < p.histLen ∧
    ∀ j, j < p.histLen →
      readBack (processRun p (initState p) inputs).farHist
        (processRun p (initState p) inputs).histPos j =
        if j < inputs.length * p.blockSamples then
          (farStream p inputs).getD (inputs.length * p.blockSamples - 1 - j) 0
        else 0 := by
  have hL0 : 0 < p.histLen := by
    unfold Params.histLen
    omega
  obtain ⟨hlen, hpos, hread⟩ := processRun_hist_spec p hb inputs
  refine ⟨rfl, rfl, ?_, hlen, hpos, by rw [hpos]; exact Nat.mod_lt _ hL0, hread⟩
  intro st far mic hstlen hstpos
  have hspec := pushSamples_spec (blockOf p far) st.farHist st.histPos
    (by rw [blockOf_length, hstlen]; unfold Params.histLen; omega)
    (by rw [hstlen]; exact hstpos)
  constructor
  · rw [processBlock_state_hist, show postHist p st far =
      (pushSamples st.farHist st.histPos (blockOf p far)).1 from rfl, hspec.1, hstlen]
  · rw [processBlock_state_pos, show postPos p st far =
      (pushSamples st.farHist st.histPos (blockOf p far)).2 from rfl, hspec.2.1,
      blockOf_length, hstlen]

/-- Witness for C7: two calls at the small parameter set, checking the
characterization at one in-window and one out-of-window depth. -/
theorem reference_history_ring_witness :
    (processRun tinyParams (initState tinyParams) [([1], [0]), ([2], [0])]).histPos =
      (2 * tinyParams.blockSamples) % tinyParams.histLen ∧
    readBack (processRun tinyParams (initState tinyParams)
        [([1], [0]), ([2], [0])]).farHist
      (processRun tinyParams (initState tinyParams) [([1], [0]), ([2], [0])]).histPos 0 =
      (farStream tinyParams [([1], [0]), ([2], [0])]).getD
        (2 * tinyParams.blockSamples - 1 - 0) 0 := by
  have h := reference_history_ring tinyParams (by decide) [([1], [0]), ([2], [0])]
  refine ⟨h.2.2.2.2.1, ?_⟩
  have hr := h.2.2.2.2.2.2 0 (by decide)
  rw [hr, if_pos (by decide)]
  rfl

end MinES
